import Mathlib

/-!
Shallow embedding of the balance and settlement core of the Dolla
expense-splitting application (src/web/src/App.tsx: the `balances` and
`settlements` memos; the same logic is duplicated in src/sms-server.js,
`calculateSettlements`), together with the phone-number normalization
helper `normalizePhone` (App.tsx line 72).

JavaScript objects keyed by phone-number strings are embedded as
association lists `List (String × Int)` in key-insertion order:
reading a key returns its first binding (0 when absent, matching
`map[k] ?? 0`), writing updates the first binding in place or appends a
new binding at the end, and `Object.entries` enumerates the list itself.
Monetary amounts are integer minor units (cents), embedded as `Int`;
`Math.floor(a / n)` on integers with `n > 0` is Euclidean division.
-/

namespace Dolla

/-- A JS object mapping participant identities to integer cent balances,
kept in key-insertion order. -/
abbrev BalMap := List (String × Int)

/-- Read a key, defaulting to 0: embeds `map[k] ?? 0`. -/
def getD : BalMap → String → Int
  | [], _ => 0
  | (k2, v) :: rest, k => if k2 = k then v else getD rest k

/-- Write a key: update the first binding in place, or append a new
binding at the end (JS object key-insertion order). -/
def setVal : BalMap → String → Int → BalMap
  | [], k, v => [(k, v)]
  | (k2, v2) :: rest, k, v =>
    if k2 = k then (k, v) :: rest else (k2, v2) :: setVal rest k v

/-- Embeds `map[k] = (map[k] ?? 0) + d`. -/
def addVal (m : BalMap) (k : String) (d : Int) : BalMap :=
  setVal m k (getD m k + d)

/-- Sum of all values stored in the map. -/
def mapSum (m : BalMap) : Int := (m.map Prod.snd).sum

/-- An expense record. Only the fields the balance computation reads are
kept; `id`, `groupId`, `description` and `createdAt` are inert there. -/
structure Expense where
  payerPhone : String
  amountCents : Int
  participants : List String
deriving DecidableEq, Repr

/-- Embeds the `e.participants.forEach` loop of the `balances` memo: each
participant is debited `share`, plus 1 extra cent while the mutable
`remainder` is still positive. -/
def applyShares (share : Int) : BalMap → Int → List String → BalMap
  | m, _, [] => m
  | m, r, p :: rest =>
    let thisShare := share + (if 0 < r then 1 else 0)
    let r2 := if 0 < r then r - 1 else r
    applyShares share (addVal m p (-thisShare)) r2 rest

/-- Embeds one iteration of the `for (const e of expenses)` loop: credit
the payer the full amount, then debit each participant's share, where
`share = Math.floor(e.amountCents / e.participants.length)` and
`remainder = e.amountCents - share * e.participants.length`. On the
contract's domain the participant list is non-empty, and Euclidean
division by the positive length is exactly `Math.floor` division. -/
def applyExpense (m : BalMap) (e : Expense) : BalMap :=
  let m1 := addVal m e.payerPhone e.amountCents
  let n : Int := (e.participants.length : Int)
  let share := e.amountCents / n
  let r := e.amountCents - share * n
  applyShares share m1 r e.participants

/-- Zero-initialize the balance map for full members and invited
non-members, in that order. -/
def initMembers (ms nms : List String) : BalMap :=
  nms.foldl (fun m p => setVal m p 0) (ms.foldl (fun m p => setVal m p 0) [])

/-- The `balances` memo of App.tsx (identical to the balance phase of
`calculateSettlements` in sms-server.js, which has no non-member list). -/
def computeBalances (ms nms : List String) (es : List Expense) : BalMap :=
  es.foldl applyExpense (initMembers ms nms)

/-- A recommended payment: `from_` pays `to_` `amount` cents. -/
structure Settlement where
  from_ : String
  to_ : String
  amount : Int
deriving DecidableEq, Repr

/-- Debtor entries `(phone, -amt)` for map entries with `|amt| ≥ 1` and
`amt < 0`, in map order: embeds the classification loop of the
`settlements` memo (`continue` on `Math.abs(amt) < 1`). -/
def debtors (b : BalMap) : List (String × Int) :=
  b.filterMap (fun p =>
    if |p.2| < 1 then none
    else if p.2 < 0 then some (p.1, -p.2) else none)

/-- Creditor entries `(phone, amt)` for map entries with `|amt| ≥ 1` and
`amt ≥ 0`, in map order. -/
def creditors (b : BalMap) : List (String × Int) :=
  b.filterMap (fun p =>
    if |p.2| < 1 then none
    else if p.2 < 0 then none else some p)

/-- Stable insertion for a descending-by-amount order: the new element
moves past exactly the elements with a strictly larger amount, so
elements with equal amounts keep their original relative order. -/
def insertDesc (x : String × Int) : List (String × Int) → List (String × Int)
  | [] => [x]
  | y :: ys => if x.2 < y.2 then y :: insertDesc x ys else x :: y :: ys

/-- Stable descending sort by amount: embeds the stable JS
`.sort((a,b) => b.amount - a.amount)`. -/
def sortDesc (l : List (String × Int)) : List (String × Int) :=
  l.foldr insertDesc []

/-- Fuel-indexed embedding of the greedy `while (i < debtors.length &&
j < creditors.length)` loop. Each iteration pays
`min(d.amount, c.amount)`, so the updated amount of at least one side is
0 and that side's index advances; hence `ds.length + cs.length` fuel
always runs the loop to completion. When the debtor side keeps a residual
larger than 1 the payment equaled the whole creditor amount, so the
creditor side necessarily advances, which the last branch records. -/
def greedyAux : Nat → List (String × Int) → List (String × Int) → List Settlement
  | 0, _, _ => []
  | _ + 1, [], _ => []
  | _ + 1, _ :: _, [] => []
  | fuel + 1, (dp, da) :: ds, (cp, ca) :: cs =>
    let pay := min da ca
    let da2 := da - pay
    let ca2 := ca - pay
    { from_ := dp, to_ := cp, amount := pay } ::
      (if da2 ≤ 1 then
        if ca2 ≤ 1 then greedyAux fuel ds cs
        else greedyAux fuel ds ((cp, ca2) :: cs)
      else greedyAux fuel ((dp, da2) :: ds) cs)

/-- The `settlements` memo of App.tsx: classify each balance entry, sort
debtors and creditors descending by amount, then greedily match the
largest remaining debtor with the largest remaining creditor. -/
def minimizeSettlements (b : BalMap) : List Settlement :=
  let ds := sortDesc (debtors b)
  let cs := sortDesc (creditors b)
  greedyAux (ds.length + cs.length) ds cs

/-- Total amount key `k` pays across a settlement list. -/
def paidBy : List Settlement → String → Int
  | [], _ => 0
  | t :: ts, k => (if t.from_ = k then t.amount else 0) + paidBy ts k

/-- Total amount key `k` receives across a settlement list. -/
def recvBy : List Settlement → String → Int
  | [], _ => 0
  | t :: ts, k => (if t.to_ = k then t.amount else 0) + recvBy ts k

/-- Replay a settlement list over a balance map in the debt-reducing
direction: each payment raises the payer's balance by its amount and
lowers the receiver's balance by the same amount. -/
def replay (b : BalMap) (s : List Settlement) : BalMap :=
  s.foldl (fun m t => addVal (addVal m t.from_ t.amount) t.to_ (-t.amount)) b

/-- Replay a settlement list in the literal direction of the spec
sentence: subtract each payment's amount from the `from` participant's
balance and add it to the `to` participant's balance. -/
def replayAsWritten (b : BalMap) (s : List Settlement) : BalMap :=
  s.foldl (fun m t => addVal (addVal m t.from_ (-t.amount)) t.to_ t.amount) b

/-- Total value the entries of an association list carry at key `k`. -/
def keyAmt (l : List (String × Int)) (k : String) : Int :=
  (l.map (fun x => if x.1 = k then x.2 else 0)).sum

/-- Total share the `forEach` loop debits to key `k` across the
participant list (a key occurring several times is debited each time). -/
def chargeOf (share : Int) : Int → List String → String → Int
  | _, [], _ => 0
  | r, p :: rest, k =>
    (if p = k then share + (if 0 < r then 1 else 0) else 0) +
      chargeOf share (if 0 < r then r - 1 else r) rest k

/-- Net effect of one expense on the balance of key `k`. -/
def expDelta (e : Expense) (k : String) : Int :=
  let n : Int := (e.participants.length : Int)
  let share := e.amountCents / n
  let r := e.amountCents - share * n
  (if e.payerPhone = k then e.amountCents else 0) - chargeOf share r e.participants k

/-- Total of all shares the `forEach` loop debits across the participant
list. -/
def totalShares (share : Int) : Int → List String → Int
  | _, [] => 0
  | r, _ :: rest =>
    (share + (if 0 < r then 1 else 0)) +
      totalShares share (if 0 < r then r - 1 else r) rest

/-- Characters kept by `replace(/[^\d+]/g, '')`: ASCII digits and `+`. -/
def isAllowed (c : Char) : Bool := c.isDigit || c == '+'

/-- Trim leading and trailing whitespace: embeds `String.prototype.trim`
(on the whitespace characters phone inputs can contain). -/
def trimChars (l : List Char) : List Char :=
  ((l.dropWhile Char.isWhitespace).reverse.dropWhile Char.isWhitespace).reverse

/-- Embeds `normalizePhone` (App.tsx line 72) at the character-list
level: strip to digits and `+`, return as is when it starts with `+`,
prepend `+1` when exactly 10 characters remain, else return as is. -/
def phoneCore (l : List Char) : List Char :=
  let d := (trimChars l).filter isAllowed
  if d.head? = some '+' then d
  else if d.length = 10 then '+' :: '1' :: d
  else d

/-- The source `normalizePhone` on strings. -/
def normalizePhone (s : String) : String := (phoneCore s.data).asString

/-! Basic association-list lemmas. -/

lemma getD_nil (k : String) : getD [] k = 0 := rfl

lemma getD_cons (k1 : String) (v : Int) (t : BalMap) (k : String) :
    getD ((k1, v) :: t) k = if k1 = k then v else getD t k := rfl

lemma mapSum_nil : mapSum [] = 0 := rfl

lemma mapSum_cons (k : String) (v : Int) (t : BalMap) :
    mapSum ((k, v) :: t) = v + mapSum t := by
  simp [mapSum]

lemma setVal_nil (k : String) (v : Int) : setVal [] k v = [(k, v)] := rfl

lemma setVal_cons (k1 : String) (v1 : Int) (t : BalMap) (k : String) (v : Int) :
    setVal ((k1, v1) :: t) k v =
      if k1 = k then (k, v) :: t else (k1, v1) :: setVal t k v := rfl

lemma getD_setVal (m : BalMap) (k : String) (v : Int) (k2 : String) :
    getD (setVal m k v) k2 = if k = k2 then v else getD m k2 := by
  induction m with
  | nil =>
    simp [setVal_nil, getD_cons, getD_nil]
  | cons h t ih =>
    obtain ⟨k1, v1⟩ := h
    rw [setVal_cons]
    by_cases h1 : k1 = k
    · subst h1
      rw [if_pos rfl, getD_cons, getD_cons]
      by_cases h2 : k1 = k2 <;> simp [h2]
    · rw [if_neg h1, getD_cons, getD_cons, ih]
      by_cases h2 : k1 = k2
      · subst h2
        rw [if_pos rfl, if_pos rfl, if_neg (fun h => h1 h.symm)]
      · rw [if_neg h2, if_neg h2]

lemma getD_addVal (m : BalMap) (k : String) (d : Int) (k2 : String) :
    getD (addVal m k d) k2 = if k = k2 then getD m k2 + d else getD m k2 := by
  rw [addVal, getD_setVal]
  split <;> simp_all

lemma mapSum_setVal (m : BalMap) (k : String) (v : Int) :
    mapSum (setVal m k v) = mapSum m + v - getD m k := by
  induction m with
  | nil =>
    rw [setVal_nil, mapSum_cons, mapSum_nil, getD_nil]
    ring
  | cons h t ih =>
    obtain ⟨k1, v1⟩ := h
    rw [setVal_cons, getD_cons]
    by_cases h1 : k1 = k
    · rw [if_pos h1, if_pos h1, mapSum_cons, mapSum_cons]
      ring
    · rw [if_neg h1, if_neg h1, mapSum_cons, mapSum_cons, ih]
      ring

lemma mapSum_addVal (m : BalMap) (k : String) (d : Int) :
    mapSum (addVal m k d) = mapSum m + d := by
  rw [addVal, mapSum_setVal]; ring

lemma mapSum_applyShares (share : Int) (m : BalMap) (r : Int) (ps : List String) :
    mapSum (applyShares share m r ps) = mapSum m - totalShares share r ps := by
  induction ps generalizing m r with
  | nil => simp [applyShares, totalShares]
  | cons p rest ih =>
    simp only [applyShares, totalShares, ih, mapSum_addVal]
    ring

lemma totalShares_eq (share : Int) (r : Int) (ps : List String)
    (h0 : 0 ≤ r) (h1 : r ≤ (ps.length : Int)) :
    totalShares share r ps = share * ps.length + r := by
  induction ps generalizing r with
  | nil =>
    simp only [List.length_nil, Nat.cast_zero] at h1
    have : r = 0 := le_antisymm h1 h0
    simp [totalShares, this]
  | cons p rest ih =>
    simp only [totalShares, List.length_cons]
    by_cases hr : 0 < r
    · rw [if_pos hr, if_pos hr, ih (r - 1) (by omega)
        (by simp only [List.length_cons, Nat.cast_add, Nat.cast_one] at h1; omega)]
      push_cast
      ring
    · have : r = 0 := by omega
      subst this
      rw [if_neg hr, if_neg hr, ih 0 le_rfl (by positivity)]
      push_cast
      ring

lemma mapSum_applyExpense (m : BalMap) (e : Expense) (hne : e.participants ≠ []) :
    mapSum (applyExpense m e) = mapSum m := by
  have hn : 0 < (e.participants.length : Int) := by
    have := List.length_pos.mpr hne
    exact_mod_cast this
  have hr : e.amountCents - e.amountCents / (e.participants.length : Int) *
      (e.participants.length : Int) = e.amountCents % (e.participants.length : Int) := by
    rw [Int.emod_def]; ring
  simp only [applyExpense]
  rw [mapSum_applyShares, mapSum_addVal, hr,
    totalShares_eq _ _ _ (Int.emod_nonneg e.amountCents (by omega))
      (le_of_lt (Int.emod_lt_of_pos e.amountCents hn))]
  have h2 := Int.ediv_add_emod e.amountCents (e.participants.length : Int)
  have h3 : e.amountCents / (e.participants.length : Int) * (e.participants.length : Int) =
      (e.participants.length : Int) * (e.amountCents / (e.participants.length : Int)) :=
    mul_comm _ _
  linarith

lemma setVal_zero_values (m : BalMap) (k : String)
    (h : ∀ x ∈ m, Prod.snd x = 0) : ∀ x ∈ setVal m k 0, Prod.snd x = 0 := by
  induction m with
  | nil =>
    rw [setVal_nil]
    intro x hx
    rcases List.mem_singleton.mp hx with rfl
    rfl
  | cons hd t ih =>
    obtain ⟨k1, v1⟩ := hd
    rw [setVal_cons]
    by_cases h1 : k1 = k
    · rw [if_pos h1]
      intro x hx
      rcases List.mem_cons.mp hx with rfl | hx
      · rfl
      · exact h x (List.mem_cons_of_mem _ hx)
    · rw [if_neg h1]
      intro x hx
      rcases List.mem_cons.mp hx with rfl | hx
      · exact h _ (by simp)
      · exact ih (fun y hy => h y (List.mem_cons_of_mem _ hy)) x hx

lemma foldl_setVal_zero_values (ps : List String) (m : BalMap)
    (h : ∀ x ∈ m, Prod.snd x = 0) :
    ∀ x ∈ ps.foldl (fun m p => setVal m p 0) m, Prod.snd x = 0 := by
  induction ps generalizing m with
  | nil => simpa using h
  | cons p rest ih =>
    simp only [List.foldl_cons]
    exact ih _ (setVal_zero_values m p h)

lemma mapSum_eq_zero_of_values (m : BalMap) (h : ∀ x ∈ m, Prod.snd x = 0) :
    mapSum m = 0 := by
  induction m with
  | nil => rfl
  | cons hd t ih =>
    obtain ⟨k, v⟩ := hd
    have hv : v = 0 := h (k, v) (by simp)
    rw [mapSum_cons, hv, ih (fun y hy => h y (List.mem_cons_of_mem _ hy))]
    ring

lemma mapSum_initMembers (ms nms : List String) : mapSum (initMembers ms nms) = 0 := by
  refine mapSum_eq_zero_of_values _ ?_
  exact foldl_setVal_zero_values nms _ (foldl_setVal_zero_values ms [] (by simp))

lemma foldl_applyExpense_mapSum (es : List Expense) :
    ∀ m : BalMap, (∀ e ∈ es, e.participants ≠ []) →
      mapSum (es.foldl applyExpense m) = mapSum m := by
  induction es with
  | nil => intro m _; rfl
  | cons e rest ih =>
    intro m h
    rw [List.foldl_cons, ih _ (fun e' he' => h e' (List.mem_cons_of_mem _ he')),
      mapSum_applyExpense m e (h e (by simp))]

lemma conservation_core (ms nms : List String) (es : List Expense)
    (hne : ∀ e ∈ es, e.participants ≠ []) :
    mapSum (computeBalances ms nms es) = 0 := by
  rw [computeBalances, foldl_applyExpense_mapSum es _ hne, mapSum_initMembers]

/-! Per-key characterization of the balance fold. -/

lemma getD_applyShares (share : Int) (ps : List String) :
    ∀ (m : BalMap) (r : Int) (k : String),
      getD (applyShares share m r ps) k = getD m k - chargeOf share r ps k := by
  induction ps with
  | nil => intro m r k; simp [applyShares, chargeOf]
  | cons p rest ih =>
    intro m r k
    simp only [applyShares, chargeOf]
    rw [ih, getD_addVal]
    by_cases hp : p = k
    · simp only [hp, if_pos]
      ring
    · simp only [hp, if_neg, ite_false]
      simp [hp]

lemma getD_applyExpense (m : BalMap) (e : Expense) (k : String) :
    getD (applyExpense m e) k = getD m k + expDelta e k := by
  simp only [applyExpense, expDelta]
  rw [getD_applyShares, getD_addVal]
  by_cases hp : e.payerPhone = k <;> simp [hp] <;> ring

lemma getD_foldl_applyExpense (es : List Expense) :
    ∀ (m : BalMap) (k : String),
      getD (es.foldl applyExpense m) k =
        getD m k + (es.map (fun e => expDelta e k)).sum := by
  induction es with
  | nil => intro m k; simp
  | cons e rest ih =>
    intro m k
    rw [List.foldl_cons, ih, getD_applyExpense, List.map_cons, List.sum_cons]
    ring

lemma computeBalances_perm_core (ms nms : List String) (es1 es2 : List Expense)
    (hp : es1.Perm es2) (k : String) :
    getD (computeBalances ms nms es1) k = getD (computeBalances ms nms es2) k := by
  rw [computeBalances, computeBalances, getD_foldl_applyExpense,
    getD_foldl_applyExpense, (hp.map (fun e => expDelta e k)).sum_eq]

lemma chargeOf_not_mem (share : Int) (ps : List String) :
    ∀ (r : Int) (k : String), k ∉ ps → chargeOf share r ps k = 0 := by
  induction ps with
  | nil => intro r k _; rfl
  | cons p rest ih =>
    intro r k hk
    simp only [chargeOf]
    rw [if_neg (fun h => hk (List.mem_cons.mpr (Or.inl h.symm))),
      ih _ _ (fun h => hk (List.mem_cons_of_mem _ h)), zero_add]

lemma chargeOf_get (share : Int) (ps : List String) (hnd : ps.Nodup) :
    ∀ (r : Int) (i : Nat) (hi : i < ps.length),
      chargeOf share r ps (ps.get ⟨i, hi⟩) =
        share + (if (i : Int) < r then 1 else 0) := by
  induction ps with
  | nil => intro r i hi; exact absurd hi (by simp)
  | cons p rest ih =>
    intro r i hi
    obtain ⟨hp, hrest⟩ := List.nodup_cons.mp hnd
    cases i with
    | zero =>
      simp only [chargeOf, List.get]
      rw [chargeOf_not_mem share rest _ p hp]
      simp
    | succ j =>
      have hj : j < rest.length := by
        simpa [Nat.succ_lt_succ_iff] using hi
      have hget : (p :: rest).get ⟨j + 1, hi⟩ = rest.get ⟨j, hj⟩ := rfl
      have hne : p ≠ rest.get ⟨j, hj⟩ := by
        intro h
        exact hp (h ▸ List.get_mem rest j hj)
      simp only [chargeOf, hget]
      rw [if_neg hne, zero_add, ih hrest _ j hj]
      have hiff : ((j : Int) < (if 0 < r then r - 1 else r)) ↔ (((j + 1 : Nat) : Int) < r) := by
        push_cast
        by_cases hr : 0 < r <;> simp [hr] <;> omega
      by_cases hlt : (j : Int) < (if 0 < r then r - 1 else r)
      · rw [if_pos hlt, if_pos (hiff.mp hlt)]
      · rw [if_neg hlt, if_neg (fun h => hlt (hiff.mpr h))]

/-! Lemmas about the greedy settlement loop. -/

lemma greedyAux_length : ∀ (fuel : Nat) (ds cs : List (String × Int)),
    (greedyAux fuel ds cs).length ≤ ds.length + cs.length - 1 := by
  intro fuel
  induction fuel with
  | zero => intro ds cs; simp [greedyAux]
  | succ n ih =>
    intro ds cs
    rcases ds with _ | ⟨⟨dp, da⟩, ds⟩
    · simp [greedyAux]
    rcases cs with _ | ⟨⟨cp, ca⟩, cs⟩
    · simp [greedyAux]
    simp only [greedyAux, List.length_cons]
    split_ifs with h1 h2
    · have := ih ds cs
      omega
    · have := ih ds ((cp, ca - min da ca) :: cs)
      simp only [List.length_cons] at this ⊢
      omega
    · have := ih ((dp, da - min da ca) :: ds) cs
      simp only [List.length_cons] at this ⊢
      omega

lemma greedyAux_mem_keys : ∀ (fuel : Nat) (ds cs : List (String × Int)) (t : Settlement),
    t ∈ greedyAux fuel ds cs →
      t.from_ ∈ ds.map Prod.fst ∧ t.to_ ∈ cs.map Prod.fst := by
  intro fuel
  induction fuel with
  | zero => intro ds cs t ht; simp [greedyAux] at ht
  | succ n ih =>
    intro ds cs t ht
    rcases ds with _ | ⟨⟨dp, da⟩, ds⟩
    · simp [greedyAux] at ht
    rcases cs with _ | ⟨⟨cp, ca⟩, cs⟩
    · simp [greedyAux] at ht
    simp only [greedyAux] at ht
    rcases List.mem_cons.mp ht with rfl | ht
    · constructor <;> simp
    · split_ifs at ht with h1 h2
      · obtain ⟨hf, htt⟩ := ih ds cs t ht
        exact ⟨List.mem_cons_of_mem _ hf, List.mem_cons_of_mem _ htt⟩
      · obtain ⟨hf, htt⟩ := ih ds ((cp, ca - min da ca) :: cs) t ht
        exact ⟨List.mem_cons_of_mem _ hf, htt⟩
      · obtain ⟨hf, htt⟩ := ih ((dp, da - min da ca) :: ds) cs t ht
        exact ⟨hf, List.mem_cons_of_mem _ htt⟩

lemma greedyAux_amount_pos : ∀ (fuel : Nat) (ds cs : List (String × Int)),
    (∀ x ∈ ds, 1 ≤ x.2) → (∀ x ∈ cs, 1 ≤ x.2) →
      ∀ t ∈ greedyAux fuel ds cs, 1 ≤ t.amount := by
  intro fuel
  induction fuel with
  | zero => intro ds cs _ _ t ht; simp [greedyAux] at ht
  | succ n ih =>
    intro ds cs hds hcs t ht
    rcases ds with _ | ⟨⟨dp, da⟩, ds⟩
    · simp [greedyAux] at ht
    rcases cs with _ | ⟨⟨cp, ca⟩, cs⟩
    · simp [greedyAux] at ht
    have hda : 1 ≤ da := hds (dp, da) (by simp)
    have hca : 1 ≤ ca := hcs (cp, ca) (by simp)
    have hds2 : ∀ x ∈ ds, 1 ≤ x.2 := fun x hx => hds x (List.mem_cons_of_mem _ hx)
    have hcs2 : ∀ x ∈ cs, 1 ≤ x.2 := fun x hx => hcs x (List.mem_cons_of_mem _ hx)
    simp only [greedyAux] at ht
    rcases List.mem_cons.mp ht with rfl | ht
    · exact le_min hda hca
    · split_ifs at ht with h1 h2
      · exact ih ds cs hds2 hcs2 t ht
      · refine ih ds ((cp, ca - min da ca) :: cs) hds2 ?_ t ht
        intro x hx
        rcases List.mem_cons.mp hx with rfl | hx
        · simp only at h2 ⊢
          omega
        · exact hcs2 x hx
      · refine ih ((dp, da - min da ca) :: ds) cs ?_ hcs2 t ht
        intro x hx
        rcases List.mem_cons.mp hx with rfl | hx
        · simp only at h1 ⊢
          omega
        · exact hds2 x hx

lemma greedyAux_from_ne_to : ∀ (fuel : Nat) (ds cs : List (String × Int)),
    (∀ p ∈ ds, ∀ q ∈ cs, p.1 ≠ q.1) →
      ∀ t ∈ greedyAux fuel ds cs, t.from_ ≠ t.to_ := by
  intro fuel
  induction fuel with
  | zero => intro ds cs _ t ht; simp [greedyAux] at ht
  | succ n ih =>
    intro ds cs hdis t ht
    rcases ds with _ | ⟨⟨dp, da⟩, ds⟩
    · simp [greedyAux] at ht
    rcases cs with _ | ⟨⟨cp, ca⟩, cs⟩
    · simp [greedyAux] at ht
    have hdis2 : ∀ p ∈ ds, ∀ q ∈ cs, p.1 ≠ q.1 :=
      fun p hp q hq => hdis p (List.mem_cons_of_mem _ hp) q (List.mem_cons_of_mem _ hq)
    simp only [greedyAux] at ht
    rcases List.mem_cons.mp ht with rfl | ht
    · exact hdis (dp, da) (by simp) (cp, ca) (by simp)
    · split_ifs at ht with h1 h2
      · exact ih ds cs hdis2 t ht
      · refine ih ds ((cp, ca - min da ca) :: cs) ?_ t ht
        intro p hp q hq
        rcases List.mem_cons.mp hq with rfl | hq
        · exact hdis p (List.mem_cons_of_mem _ hp) (cp, ca) (by simp)
        · exact hdis2 p hp q hq
      · refine ih ((dp, da - min da ca) :: ds) cs ?_ t ht
        intro p hp q hq
        rcases List.mem_cons.mp hp with rfl | hp
        · exact hdis (dp, da) (by simp) q (List.mem_cons_of_mem _ hq)
        · exact hdis2 p hp q hq

lemma keyAmt_nil (k : String) : keyAmt [] k = 0 := rfl

lemma keyAmt_cons (x : String × Int) (l : List (String × Int)) (k : String) :
    keyAmt (x :: l) k = (if x.1 = k then x.2 else 0) + keyAmt l k := by
  simp [keyAmt]

lemma keyAmt_nonneg (l : List (String × Int)) (k : String)
    (h : ∀ x ∈ l, 1 ≤ x.2) : 0 ≤ keyAmt l k := by
  induction l with
  | nil => simp [keyAmt_nil]
  | cons x t ih =>
    rw [keyAmt_cons]
    have hx : 1 ≤ x.2 := h x (by simp)
    have ht : 0 ≤ keyAmt t k := ih (fun y hy => h y (List.mem_cons_of_mem _ hy))
    split_ifs <;> omega

lemma paidBy_nil (k : String) : paidBy [] k = 0 := rfl

lemma paidBy_cons (t : Settlement) (ts : List Settlement) (k : String) :
    paidBy (t :: ts) k = (if t.from_ = k then t.amount else 0) + paidBy ts k := rfl

lemma recvBy_nil (k : String) : recvBy [] k = 0 := rfl

lemma recvBy_cons (t : Settlement) (ts : List Settlement) (k : String) :
    recvBy (t :: ts) k = (if t.to_ = k then t.amount else 0) + recvBy ts k := rfl

lemma paidBy_nonneg (s : List Settlement) (k : String)
    (h : ∀ t ∈ s, 1 ≤ t.amount) : 0 ≤ paidBy s k := by
  induction s with
  | nil => simp [paidBy_nil]
  | cons t ts ih =>
    rw [paidBy_cons]
    have h1 : 1 ≤ t.amount := h t (by simp)
    have h2 : 0 ≤ paidBy ts k := ih (fun y hy => h y (List.mem_cons_of_mem _ hy))
    split_ifs <;> omega

lemma recvBy_nonneg (s : List Settlement) (k : String)
    (h : ∀ t ∈ s, 1 ≤ t.amount) : 0 ≤ recvBy s k := by
  induction s with
  | nil => simp [recvBy_nil]
  | cons t ts ih =>
    rw [recvBy_cons]
    have h1 : 1 ≤ t.amount := h t (by simp)
    have h2 : 0 ≤ recvBy ts k := ih (fun y hy => h y (List.mem_cons_of_mem _ hy))
    split_ifs <;> omega

lemma paidBy_eq_zero (s : List Settlement) (k : String)
    (h : ∀ t ∈ s, t.from_ ≠ k) : paidBy s k = 0 := by
  induction s with
  | nil => rfl
  | cons t ts ih =>
    rw [paidBy_cons, if_neg (h t (by simp)),
      ih (fun y hy => h y (List.mem_cons_of_mem _ hy)), zero_add]

lemma recvBy_eq_zero (s : List Settlement) (k : String)
    (h : ∀ t ∈ s, t.to_ ≠ k) : recvBy s k = 0 := by
  induction s with
  | nil => rfl
  | cons t ts ih =>
    rw [recvBy_cons, if_neg (h t (by simp)),
      ih (fun y hy => h y (List.mem_cons_of_mem _ hy)), zero_add]

lemma paidBy_greedyAux_le : ∀ (fuel : Nat) (ds cs : List (String × Int)) (k : String),
    (∀ x ∈ ds, 1 ≤ x.2) → (∀ x ∈ cs, 1 ≤ x.2) →
      paidBy (greedyAux fuel ds cs) k ≤ keyAmt ds k := by
  intro fuel
  induction fuel with
  | zero =>
    intro ds cs k hds _
    simp only [greedyAux, paidBy_nil]
    exact keyAmt_nonneg ds k hds
  | succ n ih =>
    intro ds cs k hds hcs
    rcases ds with _ | ⟨⟨dp, da⟩, ds⟩
    · simp only [greedyAux, paidBy_nil, keyAmt_nil, le_refl]
    rcases cs with _ | ⟨⟨cp, ca⟩, cs⟩
    · simp only [greedyAux, paidBy_nil]
      exact keyAmt_nonneg _ k hds
    have hda : 1 ≤ da := hds (dp, da) (by simp)
    have hca : 1 ≤ ca := hcs (cp, ca) (by simp)
    have hds2 : ∀ x ∈ ds, 1 ≤ x.2 := fun x hx => hds x (List.mem_cons_of_mem _ hx)
    have hcs2 : ∀ x ∈ cs, 1 ≤ x.2 := fun x hx => hcs x (List.mem_cons_of_mem _ hx)
    have hmin : min da ca ≤ da := min_le_left _ _
    simp only [greedyAux, paidBy_cons, keyAmt_cons]
    by_cases h1 : da - min da ca ≤ 1
    · rw [if_pos h1]
      by_cases h2 : ca - min da ca ≤ 1
      · rw [if_pos h2]
        have hrec := ih ds cs k hds2 hcs2
        by_cases hk : dp = k
        · rw [if_pos hk, if_pos hk]; omega
        · rw [if_neg hk, if_neg hk]; omega
      · rw [if_neg h2]
        have hrec : paidBy (greedyAux n ds ((cp, ca - min da ca) :: cs)) k ≤ keyAmt ds k := by
          refine ih ds ((cp, ca - min da ca) :: cs) k hds2 ?_
          intro x hx
          rcases List.mem_cons.mp hx with rfl | hx
          · show (1 : Int) ≤ ca - min da ca
            omega
          · exact hcs2 x hx
        by_cases hk : dp = k
        · rw [if_pos hk, if_pos hk]; omega
        · rw [if_neg hk, if_neg hk]; omega
    · rw [if_neg h1]
      have hrec : paidBy (greedyAux n ((dp, da - min da ca) :: ds) cs) k ≤
          keyAmt ((dp, da - min da ca) :: ds) k := by
        refine ih ((dp, da - min da ca) :: ds) cs k ?_ hcs2
        intro x hx
        rcases List.mem_cons.mp hx with rfl | hx
        · show (1 : Int) ≤ da - min da ca
          omega
        · exact hds2 x hx
      rw [keyAmt_cons] at hrec
      by_cases hk : dp = k
      · rw [if_pos hk, if_pos hk]
        rw [if_pos hk] at hrec
        omega
      · rw [if_neg hk, if_neg hk]
        rw [if_neg hk] at hrec
        omega

lemma recvBy_greedyAux_le : ∀ (fuel : Nat) (ds cs : List (String × Int)) (k : String),
    (∀ x ∈ ds, 1 ≤ x.2) → (∀ x ∈ cs, 1 ≤ x.2) →
      recvBy (greedyAux fuel ds cs) k ≤ keyAmt cs k := by
  intro fuel
  induction fuel with
  | zero =>
    intro ds cs k _ hcs
    simp only [greedyAux, recvBy_nil]
    exact keyAmt_nonneg cs k hcs
  | succ n ih =>
    intro ds cs k hds hcs
    rcases ds with _ | ⟨⟨dp, da⟩, ds⟩
    · simp only [greedyAux, recvBy_nil]
      exact keyAmt_nonneg _ k hcs
    rcases cs with _ | ⟨⟨cp, ca⟩, cs⟩
    · simp only [greedyAux, recvBy_nil, keyAmt_nil, le_refl]
    have hda : 1 ≤ da := hds (dp, da) (by simp)
    have hca : 1 ≤ ca := hcs (cp, ca) (by simp)
    have hds2 : ∀ x ∈ ds, 1 ≤ x.2 := fun x hx => hds x (List.mem_cons_of_mem _ hx)
    have hcs2 : ∀ x ∈ cs, 1 ≤ x.2 := fun x hx => hcs x (List.mem_cons_of_mem _ hx)
    have hmin : min da ca ≤ ca := min_le_right _ _
    simp only [greedyAux, recvBy_cons, keyAmt_cons]
    by_cases h1 : da - min da ca ≤ 1
    · rw [if_pos h1]
      by_cases h2 : ca - min da ca ≤ 1
      · rw [if_pos h2]
        have hrec := ih ds cs k hds2 hcs2
        by_cases hk : cp = k
        · rw [if_pos hk, if_pos hk]; omega
        · rw [if_neg hk, if_neg hk]; omega
      · rw [if_neg h2]
        have hrec : recvBy (greedyAux n ds ((cp, ca - min da ca) :: cs)) k ≤
            keyAmt ((cp, ca - min da ca) :: cs) k := by
          refine ih ds ((cp, ca - min da ca) :: cs) k hds2 ?_
          intro x hx
          rcases List.mem_cons.mp hx with rfl | hx
          · show (1 : Int) ≤ ca - min da ca
            omega
          · exact hcs2 x hx
        rw [keyAmt_cons] at hrec
        by_cases hk : cp = k
        · rw [if_pos hk, if_pos hk]
          rw [if_pos hk] at hrec
          omega
        · rw [if_neg hk, if_neg hk]
          rw [if_neg hk] at hrec
          omega
    · rw [if_neg h1]
      have hrec : recvBy (greedyAux n ((dp, da - min da ca) :: ds) cs) k ≤ keyAmt cs k := by
        refine ih ((dp, da - min da ca) :: ds) cs k ?_ hcs2
        intro x hx
        rcases List.mem_cons.mp hx with rfl | hx
        · show (1 : Int) ≤ da - min da ca
          omega
        · exact hds2 x hx
      by_cases hk : cp = k
      · rw [if_pos hk, if_pos hk]; omega
      · rw [if_neg hk, if_neg hk]; omega

/-! Sorting and classification lemmas. -/

lemma insertDesc_perm (x : String × Int) (l : List (String × Int)) :
    (insertDesc x l).Perm (x :: l) := by
  induction l with
  | nil => exact List.Perm.refl _
  | cons y ys ih =>
    simp only [insertDesc]
    split_ifs with h
    · exact (ih.cons y).trans (List.Perm.swap x y ys)
    · exact List.Perm.refl _

lemma sortDesc_perm (l : List (String × Int)) : (sortDesc l).Perm l := by
  induction l with
  | nil => exact List.Perm.refl _
  | cons a l ih =>
    have : sortDesc (a :: l) = insertDesc a (sortDesc l) := rfl
    rw [this]
    exact (insertDesc_perm a (sortDesc l)).trans (ih.cons a)

lemma keyAmt_perm {l1 l2 : List (String × Int)} (h : l1.Perm l2) (k : String) :
    keyAmt l1 k = keyAmt l2 k := by
  unfold keyAmt
  exact (h.map _).sum_eq

lemma mem_sortDesc {l : List (String × Int)} {x : String × Int} :
    x ∈ sortDesc l ↔ x ∈ l := (sortDesc_perm l).mem_iff

lemma mem_debtors {b : BalMap} {x : String × Int} :
    x ∈ debtors b ↔ ∃ v : Int, (x.1, v) ∈ b ∧ ¬|v| < 1 ∧ v < 0 ∧ x.2 = -v := by
  simp only [debtors, List.mem_filterMap]
  constructor
  · rintro ⟨⟨k, v⟩, hmem, hf⟩
    by_cases h1 : |v| < 1
    · simp [h1] at hf
    by_cases h2 : v < 0
    · simp only [h1, h2, if_neg, if_pos, ite_true, ite_false, if_false, if_true] at hf
      simp only [if_neg h1, if_pos h2, Option.some.injEq] at hf
      refine ⟨v, ?_, h1, h2, ?_⟩
      · rw [← hf]
        exact hmem
      · rw [← hf]
    · simp [h1, h2] at hf
  · rintro ⟨v, hmem, h1, h2, hx⟩
    refine ⟨(x.1, v), hmem, ?_⟩
    rw [if_neg h1, if_pos h2, Option.some.injEq]
    exact Prod.ext rfl hx.symm

lemma mem_creditors {b : BalMap} {x : String × Int} :
    x ∈ creditors b ↔ x ∈ b ∧ ¬|x.2| < 1 ∧ ¬x.2 < 0 := by
  simp only [creditors, List.mem_filterMap]
  constructor
  · rintro ⟨p, hmem, hf⟩
    by_cases h1 : |p.2| < 1
    · simp [h1] at hf
    by_cases h2 : p.2 < 0
    · simp [h1, h2] at hf
    · rw [if_neg h1, if_neg h2, Option.some.injEq] at hf
      subst hf
      exact ⟨hmem, h1, h2⟩
  · rintro ⟨hmem, h1, h2⟩
    exact ⟨x, hmem, by rw [if_neg h1, if_neg h2]⟩

lemma debtors_amount_pos {b : BalMap} {x : String × Int} (hx : x ∈ debtors b) :
    1 ≤ x.2 := by
  obtain ⟨v, _, h1, h2, hx2⟩ := mem_debtors.mp hx
  rcases abs_cases v with ⟨ha, _⟩ | ⟨ha, _⟩ <;> omega

lemma creditors_amount_pos {b : BalMap} {x : String × Int} (hx : x ∈ creditors b) :
    1 ≤ x.2 := by
  obtain ⟨_, h1, h2⟩ := mem_creditors.mp hx
  rcases abs_cases x.2 with ⟨ha, _⟩ | ⟨ha, _⟩ <;> omega

lemma debtors_keys_sublist (b : BalMap) :
    ((debtors b).map Prod.fst).Sublist (b.map Prod.fst) := by
  induction b with
  | nil => simp [debtors]
  | cons hd t ih =>
    simp only [debtors, List.filterMap_cons] at ih ⊢
    by_cases h1 : |hd.2| < 1
    · rw [if_pos h1]
      exact ih.cons hd.1
    by_cases h2 : hd.2 < 0
    · rw [if_neg h1, if_pos h2]
      simp only [List.map_cons]
      exact ih.cons₂ hd.1
    · rw [if_neg h1, if_neg h2]
      exact ih.cons hd.1

lemma creditors_keys_sublist (b : BalMap) :
    ((creditors b).map Prod.fst).Sublist (b.map Prod.fst) := by
  induction b with
  | nil => simp [creditors]
  | cons hd t ih =>
    simp only [creditors, List.filterMap_cons] at ih ⊢
    by_cases h1 : |hd.2| < 1
    · rw [if_pos h1]
      exact ih.cons hd.1
    by_cases h2 : hd.2 < 0
    · rw [if_neg h1, if_pos h2]
      exact ih.cons hd.1
    · rw [if_neg h1, if_neg h2]
      simp only [List.map_cons]
      exact ih.cons₂ hd.1

lemma value_unique {b : BalMap} (hnd : (b.map Prod.fst).Nodup) {k : String}
    {v1 v2 : Int} (h1 : (k, v1) ∈ b) (h2 : (k, v2) ∈ b) : v1 = v2 := by
  induction b with
  | nil => simp at h1
  | cons hd t ih =>
    obtain ⟨k0, v0⟩ := hd
    simp only [List.map_cons, List.nodup_cons] at hnd
    obtain ⟨hk0, hndt⟩ := hnd
    rcases List.mem_cons.mp h1 with he1 | h1t
    · rcases List.mem_cons.mp h2 with he2 | h2t
      · have hv1 : v1 = v0 := congrArg Prod.snd he1
        have hv2 : v2 = v0 := congrArg Prod.snd he2
        exact hv1.trans hv2.symm
      · exfalso
        apply hk0
        have hk1 : k = k0 := congrArg Prod.fst he1
        rw [← hk1]
        exact List.mem_map_of_mem Prod.fst h2t
    · rcases List.mem_cons.mp h2 with he2 | h2t
      · exfalso
        apply hk0
        have hk2 : k = k0 := congrArg Prod.fst he2
        rw [← hk2]
        exact List.mem_map_of_mem Prod.fst h1t
      · exact ih hndt h1t h2t

lemma getD_of_mem {b : BalMap} (hnd : (b.map Prod.fst).Nodup) {k : String}
    {v : Int} (h : (k, v) ∈ b) : getD b k = v := by
  induction b with
  | nil => simp at h
  | cons hd t ih =>
    obtain ⟨k0, v0⟩ := hd
    simp only [List.map_cons, List.nodup_cons] at hnd
    obtain ⟨hk0, hndt⟩ := hnd
    rw [getD_cons]
    rcases List.mem_cons.mp h with he | ht
    · have hek : k = k0 := congrArg Prod.fst he
      have hev : v = v0 := congrArg Prod.snd he
      rw [if_pos hek.symm]
      exact hev.symm
    · by_cases hkk : k0 = k
      · exfalso
        apply hk0
        rw [hkk]
        exact List.mem_map_of_mem Prod.fst ht
      · rw [if_neg hkk]
        exact ih hndt ht

lemma getD_eq_zero_of_not_mem {b : BalMap} {k : String}
    (h : k ∉ b.map Prod.fst) : getD b k = 0 := by
  induction b with
  | nil => rfl
  | cons hd t ih =>
    obtain ⟨k0, v0⟩ := hd
    simp only [List.map_cons, List.mem_cons, not_or] at h
    rw [getD_cons, if_neg (fun he => h.1 he.symm)]
    exact ih h.2

lemma mem_of_mem_keys {b : BalMap} {k : String} (h : k ∈ b.map Prod.fst) :
    ∃ v : Int, (k, v) ∈ b := by
  obtain ⟨x, hx, hxk⟩ := List.mem_map.mp h
  exact ⟨x.2, by rw [← hxk]; exact hx⟩

lemma keyAmt_eq_zero_of_not_mem {l : List (String × Int)} {k : String}
    (h : k ∉ l.map Prod.fst) : keyAmt l k = 0 := by
  induction l with
  | nil => rfl
  | cons hd t ih =>
    simp only [List.map_cons, List.mem_cons, not_or] at h
    rw [keyAmt_cons, if_neg (fun he => h.1 he.symm), zero_add]
    exact ih h.2

lemma keyAmt_of_mem {l : List (String × Int)} (hnd : (l.map Prod.fst).Nodup)
    {k : String} {a : Int} (h : (k, a) ∈ l) : keyAmt l k = a := by
  induction l with
  | nil => simp at h
  | cons hd t ih =>
    obtain ⟨k0, v0⟩ := hd
    simp only [List.map_cons, List.nodup_cons] at hnd
    obtain ⟨hk0, hndt⟩ := hnd
    rw [keyAmt_cons]
    rcases List.mem_cons.mp h with he | ht
    · have hek : k = k0 := congrArg Prod.fst he
      have hev : a = v0 := congrArg Prod.snd he
      have hknot : k ∉ t.map Prod.fst := by
        rw [hek]
        exact hk0
      rw [if_pos hek.symm, keyAmt_eq_zero_of_not_mem hknot, add_zero]
      exact hev.symm
    · by_cases hkk : k0 = k
      · exfalso
        apply hk0
        rw [hkk]
        exact List.mem_map_of_mem Prod.fst ht
      · rw [if_neg hkk, ih hndt ht, zero_add]

/-! Replaying a settlement list over a balance map. -/

lemma getD_replay (s : List Settlement) :
    ∀ (b : BalMap) (k : String),
      getD (replay b s) k = getD b k + paidBy s k - recvBy s k := by
  induction s with
  | nil => intro b k; simp [replay, paidBy_nil, recvBy_nil]
  | cons t ts ih =>
    intro b k
    have hstep : getD (addVal (addVal b t.from_ t.amount) t.to_ (-t.amount)) k =
        getD b k + (if t.from_ = k then t.amount else 0) -
          (if t.to_ = k then t.amount else 0) := by
      rw [getD_addVal, getD_addVal]
      split_ifs <;> ring
    show getD (replay (addVal (addVal b t.from_ t.amount) t.to_ (-t.amount)) ts) k = _
    rw [ih, hstep, paidBy_cons, recvBy_cons]
    ring

lemma replay_no_overshoot_core (b : BalMap) (hnd : (b.map Prod.fst).Nodup)
    (k : String) :
    min (getD b k) 0 ≤ getD (replay b (minimizeSettlements b)) k ∧
      getD (replay b (minimizeSettlements b)) k ≤ max (getD b k) 0 := by
  have hSdef : minimizeSettlements b =
      greedyAux ((sortDesc (debtors b)).length + (sortDesc (creditors b)).length)
        (sortDesc (debtors b)) (sortDesc (creditors b)) := rfl
  have hdpos : ∀ x ∈ sortDesc (debtors b), 1 ≤ x.2 :=
    fun x hx => debtors_amount_pos (mem_sortDesc.mp hx)
  have hcpos : ∀ x ∈ sortDesc (creditors b), 1 ≤ x.2 :=
    fun x hx => creditors_amount_pos (mem_sortDesc.mp hx)
  have hamt : ∀ t ∈ minimizeSettlements b, 1 ≤ t.amount := by
    intro t ht
    rw [hSdef] at ht
    exact greedyAux_amount_pos _ _ _ hdpos hcpos t ht
  have hfromkeys : ∀ t ∈ minimizeSettlements b, t.from_ ∈ (debtors b).map Prod.fst := by
    intro t ht
    rw [hSdef] at ht
    exact (((sortDesc_perm (debtors b)).map Prod.fst).mem_iff).mp
      (greedyAux_mem_keys _ _ _ t ht).1
  have htokeys : ∀ t ∈ minimizeSettlements b, t.to_ ∈ (creditors b).map Prod.fst := by
    intro t ht
    rw [hSdef] at ht
    exact (((sortDesc_perm (creditors b)).map Prod.fst).mem_iff).mp
      (greedyAux_mem_keys _ _ _ t ht).2
  have hp0 : 0 ≤ paidBy (minimizeSettlements b) k := paidBy_nonneg _ _ hamt
  have hr0 : 0 ≤ recvBy (minimizeSettlements b) k := recvBy_nonneg _ _ hamt
  have hple : paidBy (minimizeSettlements b) k ≤ keyAmt (debtors b) k := by
    have h := paidBy_greedyAux_le
      ((sortDesc (debtors b)).length + (sortDesc (creditors b)).length)
      (sortDesc (debtors b)) (sortDesc (creditors b)) k hdpos hcpos
    rw [← hSdef, keyAmt_perm (sortDesc_perm (debtors b)) k] at h
    exact h
  have hrle : recvBy (minimizeSettlements b) k ≤ keyAmt (creditors b) k := by
    have h := recvBy_greedyAux_le
      ((sortDesc (debtors b)).length + (sortDesc (creditors b)).length)
      (sortDesc (debtors b)) (sortDesc (creditors b)) k hdpos hcpos
    rw [← hSdef, keyAmt_perm (sortDesc_perm (creditors b)) k] at h
    exact h
  have hfin := getD_replay (minimizeSettlements b) b k
  by_cases hkb : k ∈ b.map Prod.fst
  · obtain ⟨v, hv⟩ := mem_of_mem_keys hkb
    have hb : getD b k = v := getD_of_mem hnd hv
    by_cases h0 : |v| < 1
    · have hv0 : v = 0 := by
        rcases abs_cases v with ⟨ha, _⟩ | ⟨ha, _⟩ <;> omega
      have hkd : k ∉ (debtors b).map Prod.fst := by
        intro hk
        obtain ⟨w, hw⟩ := mem_of_mem_keys hk
        obtain ⟨v2, hv2, h1x, h2x, _⟩ := mem_debtors.mp hw
        have hveq : v2 = v := value_unique hnd hv2 hv
        exact h1x (by rw [hveq]; exact h0)
      have hkc : k ∉ (creditors b).map Prod.fst := by
        intro hk
        obtain ⟨w, hw⟩ := mem_of_mem_keys hk
        obtain ⟨hwb, h1x, _⟩ := mem_creditors.mp hw
        have hveq : w = v := value_unique hnd hwb hv
        exact h1x (by show |w| < 1; rw [hveq]; exact h0)
      have hpz : paidBy (minimizeSettlements b) k = 0 :=
        paidBy_eq_zero _ _ (fun t ht hfk => hkd (hfk ▸ hfromkeys t ht))
      have hrz : recvBy (minimizeSettlements b) k = 0 :=
        recvBy_eq_zero _ _ (fun t ht htk => hkc (htk ▸ htokeys t ht))
      omega
    · by_cases hneg : v < 0
      · have hmemd : ((k, -v) : String × Int) ∈ debtors b :=
          mem_debtors.mpr ⟨v, hv, h0, hneg, rfl⟩
        have hndd : ((debtors b).map Prod.fst).Nodup :=
          hnd.sublist (debtors_keys_sublist b)
        have hkeyd : keyAmt (debtors b) k = -v := keyAmt_of_mem hndd hmemd
        have hkc : k ∉ (creditors b).map Prod.fst := by
          intro hk
          obtain ⟨w, hw⟩ := mem_of_mem_keys hk
          obtain ⟨hwb, _, h2x⟩ := mem_creditors.mp hw
          have hveq : w = v := value_unique hnd hwb hv
          exact h2x (by show w < 0; rw [hveq]; exact hneg)
        have hrz : recvBy (minimizeSettlements b) k = 0 :=
          recvBy_eq_zero _ _ (fun t ht htk => hkc (htk ▸ htokeys t ht))
        omega
      · have hmemc : ((k, v) : String × Int) ∈ creditors b :=
          mem_creditors.mpr ⟨hv, h0, hneg⟩
        have hndc : ((creditors b).map Prod.fst).Nodup :=
          hnd.sublist (creditors_keys_sublist b)
        have hkeyc : keyAmt (creditors b) k = v := keyAmt_of_mem hndc hmemc
        have hkd : k ∉ (debtors b).map Prod.fst := by
          intro hk
          obtain ⟨w, hw⟩ := mem_of_mem_keys hk
          obtain ⟨v2, hv2, _, h2x, _⟩ := mem_debtors.mp hw
          have hveq : v2 = v := value_unique hnd hv2 hv
          exact hneg (hveq ▸ h2x)
        have hpz : paidBy (minimizeSettlements b) k = 0 :=
          paidBy_eq_zero _ _ (fun t ht hfk => hkd (hfk ▸ hfromkeys t ht))
        omega
  · have hb0 : getD b k = 0 := getD_eq_zero_of_not_mem hkb
    have hpz : paidBy (minimizeSettlements b) k = 0 :=
      paidBy_eq_zero _ _ (fun t ht hfk =>
        hkb (hfk ▸ (debtors_keys_sublist b).subset (hfromkeys t ht)))
    have hrz : recvBy (minimizeSettlements b) k = 0 :=
      recvBy_eq_zero _ _ (fun t ht htk =>
        hkb (htk ▸ (creditors_keys_sublist b).subset (htokeys t ht)))
    omega

lemma minimizeSettlements_keys_disjoint (b : BalMap)
    (hnd : (b.map Prod.fst).Nodup) :
    ∀ t ∈ minimizeSettlements b, t.from_ ≠ t.to_ := by
  intro t ht
  have hSdef : minimizeSettlements b =
      greedyAux ((sortDesc (debtors b)).length + (sortDesc (creditors b)).length)
        (sortDesc (debtors b)) (sortDesc (creditors b)) := rfl
  rw [hSdef] at ht
  refine greedyAux_from_ne_to _ _ _ ?_ t ht
  intro p hp q hq hpq
  have hp2 : p ∈ debtors b := mem_sortDesc.mp hp
  have hq2 : q ∈ creditors b := mem_sortDesc.mp hq
  obtain ⟨v2, hv2, _, h2x, _⟩ := mem_debtors.mp hp2
  obtain ⟨hqb, _, hq2x⟩ := mem_creditors.mp hq2
  have hveq : v2 = q.2 := value_unique hnd (hpq ▸ hv2) hqb
  exact hq2x (hveq ▸ h2x)

/-! Lemmas about phone normalization. -/

lemma isAllowed_not_whitespace {c : Char} (h : isAllowed c = true) :
    c.isWhitespace = false := by
  have hs : c ≠ ' ' := fun he => absurd (he ▸ h) (by decide)
  have ht : c ≠ '\t' := fun he => absurd (he ▸ h) (by decide)
  have hr : c ≠ '\r' := fun he => absurd (he ▸ h) (by decide)
  have hn : c ≠ '\n' := fun he => absurd (he ▸ h) (by decide)
  simp [Char.isWhitespace, hs, ht, hr, hn]

lemma dropWhile_eq_self_of_all {p : Char → Bool} {l : List Char}
    (h : ∀ c ∈ l, p c = false) : l.dropWhile p = l := by
  cases l with
  | nil => rfl
  | cons a t =>
    rw [List.dropWhile_cons, if_neg]
    simp [h a (by simp)]

lemma trimChars_eq_self {l : List Char} (h : ∀ c ∈ l, c.isWhitespace = false) :
    trimChars l = l := by
  unfold trimChars
  rw [dropWhile_eq_self_of_all h,
    dropWhile_eq_self_of_all (fun c hc => h c (List.mem_reverse.mp hc)),
    List.reverse_reverse]

lemma filter_allowed_eq_self {l : List Char} (h : ∀ c ∈ l, isAllowed c = true) :
    l.filter isAllowed = l :=
  List.filter_eq_self.mpr h

lemma phoneCore_chars {l : List Char} : ∀ c ∈ phoneCore l, isAllowed c = true := by
  intro c hc
  simp only [phoneCore] at hc
  split_ifs at hc with h1 h2
  · exact (List.mem_filter.mp hc).2
  · rcases List.mem_cons.mp hc with rfl | hc2
    · decide
    rcases List.mem_cons.mp hc2 with rfl | hc3
    · decide
    · exact (List.mem_filter.mp hc3).2
  · exact (List.mem_filter.mp hc).2

lemma phoneCore_of_allowed {y : List Char} (h : ∀ c ∈ y, isAllowed c = true) :
    phoneCore y =
      if y.head? = some '+' then y
      else if y.length = 10 then '+' :: '1' :: y
      else y := by
  have hws : ∀ c ∈ y, c.isWhitespace = false :=
    fun c hc => isAllowed_not_whitespace (h c hc)
  simp only [phoneCore, trimChars_eq_self hws, filter_allowed_eq_self h]

lemma phoneCore_idem (l : List Char) : phoneCore (phoneCore l) = phoneCore l := by
  rw [phoneCore_of_allowed phoneCore_chars]
  by_cases h1 : ((trimChars l).filter isAllowed).head? = some '+'
  · have hd : phoneCore l = (trimChars l).filter isAllowed := by
      simp only [phoneCore]
      rw [if_pos h1]
    rw [hd, if_pos h1]
  · by_cases h2 : ((trimChars l).filter isAllowed).length = 10
    · have hd : phoneCore l = '+' :: '1' :: (trimChars l).filter isAllowed := by
        simp only [phoneCore]
        rw [if_neg h1, if_pos h2]
      have hhead : ('+' :: '1' :: (trimChars l).filter isAllowed).head? = some '+' := rfl
      rw [hd, if_pos hhead]
    · have hd : phoneCore l = (trimChars l).filter isAllowed := by
        simp only [phoneCore]
        rw [if_neg h1, if_neg h2]
      rw [hd, if_neg h1, if_neg h2]

/-! Concrete inputs used by the claim witnesses and counterexamples. -/

/-- Hotel expense of the spec's worked example: $300.00 paid by Alice,
split among all three members. -/
def exHotel : Expense := ⟨"Alice", 30000, ["Alice", "Bob", "Charlie"]⟩

/-- Dinner expense of the spec's worked example: $120.00 paid by Bob,
split among all three members. -/
def exDinner : Expense := ⟨"Bob", 12000, ["Alice", "Bob", "Charlie"]⟩

/-- Member list of the spec's worked example. -/
def exMembers : List String := ["Alice", "Bob", "Charlie"]

/-- A conserving balance map on which the greedy loop's `≤ 1` advance
leaks two 1-cent residuals onto the untouched creditor E. -/
def exLeak : BalMap := [("A", -3), ("B", -3), ("C", 2), ("D", 2), ("E", 2)]

/-- A 100-cent expense split three ways (remainder distribution example). -/
def exShares : Expense := ⟨"Payer", 100, ["x", "y", "z"]⟩

/-- A single-member expense paid and shared by the same person. -/
def exSolo : Expense := ⟨"Ann", 10, ["Ann"]⟩

/-- An expense whose payer and participants are all outside the member list. -/
def exOutside : Expense := ⟨"P", 7, ["X", "Y"]⟩

/-! Claim theorems. -/

/-- C1: for every set of members (full and invited) and every finite expense
list in which each expense has a non-empty participant list and all
participants come from the closed universe of members together with all
payers, the values of the balance map returned by `computeBalances` sum to
exactly 0. -/
theorem computeBalances_conservation_closed
    (ms nms : List String) (es : List Expense)
    (hne : ∀ e ∈ es, e.participants ≠ [])
    (_hclosed : ∀ e ∈ es, ∀ p ∈ e.participants,
      p ∈ ms ∨ p ∈ nms ∨ ∃ e2 ∈ es, e2.payerPhone = p) :
    mapSum (computeBalances ms nms es) = 0 :=
  conservation_core ms nms es hne

/-- C1 witness: the conservation theorem applied to one member with one solo
expense. -/
theorem computeBalances_conservation_closed_witness :
    mapSum (computeBalances ["Ann"] [] [exSolo]) = 0 :=
  computeBalances_conservation_closed ["Ann"] [] [exSolo] (by decide) (by decide)

/-- C9: conservation needs no closed-universe precondition: the payer credit
and every participant debit default missing map entries to 0 before
updating them, so for every expense list whose expenses merely have
non-empty participant lists the values of the returned balance map sum to
exactly 0. -/
theorem computeBalances_conservation
    (ms nms : List String) (es : List Expense)
    (hne : ∀ e ∈ es, e.participants ≠ []) :
    mapSum (computeBalances ms nms es) = 0 :=
  conservation_core ms nms es hne

/-- C9 witness: conservation on an expense whose payer and participants are
all absent from the member universe. -/
theorem computeBalances_conservation_witness :
    mapSum (computeBalances [] [] [exOutside]) = 0 :=
  computeBalances_conservation [] [] [exOutside] (by decide)

/-- C4: on the spec's worked example (members Alice, Bob, Charlie; Hotel
30000 cents paid by Alice split three ways, then Dinner 12000 cents paid by
Bob split three ways) the balances are Alice +16000, Bob -2000,
Charlie -14000, they sum to 0, and the minimizer returns exactly
[Charlie pays Alice 14000, Bob pays Alice 2000] in that order. -/
theorem worked_example :
    getD (computeBalances exMembers [] [exHotel, exDinner]) "Alice" = 16000 ∧
    getD (computeBalances exMembers [] [exHotel, exDinner]) "Bob" = -2000 ∧
    getD (computeBalances exMembers [] [exHotel, exDinner]) "Charlie" = -14000 ∧
    mapSum (computeBalances exMembers [] [exHotel, exDinner]) = 0 ∧
    minimizeSettlements (computeBalances exMembers [] [exHotel, exDinner]) =
      [⟨"Charlie", "Alice", 14000⟩, ⟨"Bob", "Alice", 2000⟩] := by
  decide

/-- C5: for every expense with a non-empty, duplicate-free participant list,
the balance fold debits the participant at position `i` exactly
`base = floor(amount / n)` plus 1 extra cent when `i < amount - base * n`
(the first `remainder` positions in stored order), on top of the payer
credit when that participant is the payer. -/
theorem applyExpense_share_distribution (m : BalMap) (e : Expense)
    (_hne : e.participants ≠ []) (hnd : e.participants.Nodup)
    (i : Nat) (hi : i < e.participants.length) :
    getD (applyExpense m e) (e.participants.get ⟨i, hi⟩) =
      getD m (e.participants.get ⟨i, hi⟩)
      + (if e.payerPhone = e.participants.get ⟨i, hi⟩ then e.amountCents else 0)
      - (e.amountCents / (e.participants.length : Int)
         + (if (i : Int) < e.amountCents % (e.participants.length : Int) then 1
            else 0)) := by
  have hrem : e.amountCents - e.amountCents / (e.participants.length : Int) *
      (e.participants.length : Int) =
      e.amountCents % (e.participants.length : Int) := by
    rw [Int.emod_def]
    ring
  simp only [applyExpense]
  rw [getD_applyShares, getD_addVal, hrem, chargeOf_get _ _ hnd _ i hi]
  split_ifs with h1 <;> ring

/-- C5 witness: 100 cents split three ways debits the first participant
floor(100/3) = 33 plus the 1-cent remainder, i.e. 34 (shares [34,33,33]). -/
theorem applyExpense_share_distribution_witness :
    getD (applyExpense [] exShares) (exShares.participants.get ⟨0, by decide⟩) =
      getD [] (exShares.participants.get ⟨0, by decide⟩)
      + (if exShares.payerPhone = exShares.participants.get ⟨0, by decide⟩ then
          exShares.amountCents else 0)
      - (exShares.amountCents / (exShares.participants.length : Int)
         + (if ((0 : Nat) : Int) < exShares.amountCents %
              (exShares.participants.length : Int) then 1 else 0)) :=
  applyExpense_share_distribution [] exShares (by decide) (by decide) 0 (by decide)

/-- C6: the balance map is invariant under permutation of the expense list:
for any two expense lists that are permutations of each other (each expense
with a non-empty participant list), every participant's computed balance is
the same. -/
theorem computeBalances_perm_invariant (ms nms : List String)
    (es1 es2 : List Expense) (hperm : es1.Perm es2)
    (_hne : ∀ e ∈ es1, e.participants ≠ []) (k : String) :
    getD (computeBalances ms nms es1) k = getD (computeBalances ms nms es2) k :=
  computeBalances_perm_core ms nms es1 es2 hperm k

/-- C6 witness: swapping the two worked-example expenses leaves Alice's
balance unchanged. -/
theorem computeBalances_perm_invariant_witness :
    getD (computeBalances exMembers [] [exHotel, exDinner]) "Alice" =
      getD (computeBalances exMembers [] [exDinner, exHotel]) "Alice" :=
  computeBalances_perm_invariant exMembers [] [exHotel, exDinner]
    [exDinner, exHotel] (List.Perm.swap exDinner exHotel []) (by decide) "Alice"

/-- C7: phone-identity normalization is idempotent: normalizing an already
normalized string returns it unchanged. -/
theorem normalizePhone_idempotent (s : String) :
    normalizePhone (normalizePhone s) = normalizePhone s := by
  have hdata : ((phoneCore s.data).asString).data = phoneCore s.data := rfl
  simp only [normalizePhone, hdata, phoneCore_idem]

/-- C8: every settlement emitted by the minimizer carries a positive
integer amount (at least 1 minor unit); no zero or negative payment is
ever emitted. -/
theorem minimizeSettlements_amount_pos (b : BalMap) (t : Settlement)
    (ht : t ∈ minimizeSettlements b) : 1 ≤ t.amount := by
  have hSdef : minimizeSettlements b =
      greedyAux ((sortDesc (debtors b)).length + (sortDesc (creditors b)).length)
        (sortDesc (debtors b)) (sortDesc (creditors b)) := rfl
  rw [hSdef] at ht
  exact greedyAux_amount_pos _ _ _
    (fun x hx => debtors_amount_pos (mem_sortDesc.mp hx))
    (fun x hx => creditors_amount_pos (mem_sortDesc.mp hx)) t ht

/-- C8 witness: the single settlement produced from balances A = -1, B = +1
has amount 1 ≥ 1. -/
theorem minimizeSettlements_amount_pos_witness :
    (1 : Int) ≤ (Settlement.mk "A" "B" 1).amount :=
  minimizeSettlements_amount_pos [("A", -1), ("B", 1)] (Settlement.mk "A" "B" 1)
    (by decide)

/-- C10: every settlement emitted by the minimizer has distinct payer and
receiver: a surviving participant is classified as exactly one of debtor or
creditor, so no self-payment is emitted. -/
theorem minimizeSettlements_from_ne_to (b : BalMap)
    (hnd : (b.map Prod.fst).Nodup) (t : Settlement)
    (ht : t ∈ minimizeSettlements b) : t.from_ ≠ t.to_ :=
  minimizeSettlements_keys_disjoint b hnd t ht

/-- C10 witness: the settlement produced from balances C = -5, D = +5 has
distinct endpoints. -/
theorem minimizeSettlements_from_ne_to_witness :
    (Settlement.mk "C" "D" 5).from_ ≠ (Settlement.mk "C" "D" 5).to_ :=
  minimizeSettlements_from_ne_to [("C", -5), ("D", 5)] (by decide)
    (Settlement.mk "C" "D" 5) (by decide)

/-- C2 counterexample: on the conserving balance map exLeak
(A = -3, B = -3, C = +2, D = +2, E = +2) the minimizer emits
[A pays C 2, B pays D 2]; replaying leaves the untouched creditor E at
balance +2, outside [-1, 1] — both with the replay direction written in the
claim (subtract from `from`, add to `to`) and with the debt-reducing
direction. -/
theorem settlement_replay_counterexample :
    (¬ ∀ k : String,
      -1 ≤ getD (replayAsWritten exLeak (minimizeSettlements exLeak)) k ∧
        getD (replayAsWritten exLeak (minimizeSettlements exLeak)) k ≤ 1) ∧
    (¬ ∀ k : String,
      -1 ≤ getD (replay exLeak (minimizeSettlements exLeak)) k ∧
        getD (replay exLeak (minimizeSettlements exLeak)) k ≤ 1) := by
  constructor
  · intro h
    exact absurd (h "E").2 (by decide)
  · intro h
    exact absurd (h "E").2 (by decide)

/-- C2 (amended): replaying the settlement list in the debt-reducing
direction (add each payment to the `from` balance, subtract it from the
`to` balance) moves every participant's balance weakly toward zero and
never past it: each final balance lies between the original balance and 0
(inclusive). -/
theorem minimizeSettlements_replay_no_overshoot (b : BalMap)
    (hnd : (b.map Prod.fst).Nodup) (k : String) :
    min (getD b k) 0 ≤ getD (replay b (minimizeSettlements b)) k ∧
      getD (replay b (minimizeSettlements b)) k ≤ max (getD b k) 0 :=
  replay_no_overshoot_core b hnd k

/-- C2 (amended) witness: replay applied to balances F = -4, G = +4 keeps
F's balance between -4 and 0. -/
theorem minimizeSettlements_replay_no_overshoot_witness :
    min (getD [("F", -4), ("G", 4)] "F") 0 ≤
      getD (replay [("F", -4), ("G", 4)]
        (minimizeSettlements [("F", -4), ("G", 4)])) "F" ∧
      getD (replay [("F", -4), ("G", 4)]
        (minimizeSettlements [("F", -4), ("G", 4)])) "F" ≤
        max (getD [("F", -4), ("G", 4)] "F") 0 :=
  minimizeSettlements_replay_no_overshoot [("F", -4), ("G", 4)] (by decide) "F"

/-- C3 counterexample: on the empty balance map both filtered sides are
empty and the minimizer emits no settlement, but the claimed integer bound
`debtors.count + creditors.count - 1` is -1, so the count bound fails as
stated. -/
theorem settlement_count_counterexample :
    ¬ (((minimizeSettlements ([] : BalMap)).length : Int) ≤
        ((debtors ([] : BalMap)).length : Int) +
          ((creditors ([] : BalMap)).length : Int) - 1) := by
  decide

/-- C3 (amended): the number of emitted settlements is at most
`debtors.count + creditors.count - 1` in truncated natural subtraction:
the stated bound holds whenever at least one participant survives the
materiality filter, and the count is 0 when none does. -/
theorem minimizeSettlements_length_bound (b : BalMap) :
    (minimizeSettlements b).length ≤
      (debtors b).length + (creditors b).length - 1 := by
  have hSdef : minimizeSettlements b =
      greedyAux ((sortDesc (debtors b)).length + (sortDesc (creditors b)).length)
        (sortDesc (debtors b)) (sortDesc (creditors b)) := rfl
  have hd : (sortDesc (debtors b)).length = (debtors b).length :=
    (sortDesc_perm _).length_eq
  have hc : (sortDesc (creditors b)).length = (creditors b).length :=
    (sortDesc_perm _).length_eq
  rw [hSdef]
  calc (greedyAux ((sortDesc (debtors b)).length + (sortDesc (creditors b)).length)
      (sortDesc (debtors b)) (sortDesc (creditors b))).length ≤
      (sortDesc (debtors b)).length + (sortDesc (creditors b)).length - 1 :=
        greedyAux_length _ _ _
    _ = (debtors b).length + (creditors b).length - 1 := by rw [hd, hc]

end Dolla
